import Mathlib

/-!
Shallow embedding of `rps_analyzer.py` (class `RPSAnalyzer`).

Modelling conventions:
* Closing prices and scores are exact rationals (`Rat`).
* A pandas `DataFrame` of one entity's history is modelled by its ordered
  list of closing prices (`Series`), ascending by date, last element =
  `iloc[-1]`.
* A Python `dict` is an insertion-ordered association list.
* Python's `sorted(..., key=lambda x: x[1], reverse=True)` is a stable sort
  by the key, descending.  It is modelled by `sortDesc`, a stable
  descending insertion sort (stable sorts agree extensionally, and this
  one is structurally recursive, hence computable by `decide`).
* Fallible effects (network fetches) are modelled by `Option`-valued
  fetch functions: `none` stands for the per-identifier failure that the
  source catches and turns into a skipped entry.
-/

namespace RpsAnalyzer

/-- One entity's price history: closing prices in ascending date order. -/
abbrev Series := List Rat

/-! ### Stable descending sort (model of Python `sorted(..., reverse=True)`) -/

/-- Insert `x` into a list sorted descending by `key`, after all elements
whose key is `≥ key x` that are already present before the insertion point
reached; combined with `sortDesc` below (a fold from the right) this gives
exactly the stable descending order of Python's `sorted`. -/
def insertDesc {α : Type} (key : α → Rat) (x : α) : List α → List α
  | [] => [x]
  | y :: ys => if key x < key y then y :: insertDesc key x ys else x :: y :: ys

/-- Stable sort, descending by `key`. -/
def sortDesc {α : Type} (key : α → Rat) : List α → List α
  | [] => []
  | x :: xs => insertDesc key x (sortDesc key xs)

theorem insertDesc_perm {α : Type} (key : α → Rat) (x : α) (l : List α) :
    List.Perm (insertDesc key x l) (x :: l) := by
  induction l with
  | nil => simp [insertDesc]
  | cons y ys ih =>
    simp only [insertDesc]
    split
    · exact (ih.cons y).trans (List.Perm.swap x y ys)
    · exact List.Perm.refl _

theorem sortDesc_perm {α : Type} (key : α → Rat) (l : List α) :
    List.Perm (sortDesc key l) l := by
  induction l with
  | nil => simp [sortDesc]
  | cons x xs ih =>
    exact (insertDesc_perm key x (sortDesc key xs)).trans (ih.cons x)

theorem length_sortDesc {α : Type} (key : α → Rat) (l : List α) :
    (sortDesc key l).length = l.length :=
  (sortDesc_perm key l).length_eq

theorem mem_insertDesc {α : Type} (key : α → Rat) (x a : α) (l : List α) :
    a ∈ insertDesc key x l ↔ a = x ∨ a ∈ l := by
  rw [(insertDesc_perm key x l).mem_iff, List.mem_cons]

theorem sortDesc_pairwise {α : Type} (key : α → Rat) (l : List α) :
    (sortDesc key l).Pairwise (fun a b => key b ≤ key a) := by
  induction l with
  | nil => simp [sortDesc]
  | cons x xs ih =>
    simp only [sortDesc]
    generalize hs : sortDesc key xs = s at ih
    clear hs
    induction s with
    | nil => simp [insertDesc]
    | cons y ys ihy =>
      simp only [insertDesc]
      split
      · rename_i hlt
        rw [List.pairwise_cons] at ih
        rw [List.pairwise_cons]
        constructor
        · intro a ha
          rw [mem_insertDesc] at ha
          rcases ha with rfl | ha
          · exact le_of_lt hlt
          · exact ih.1 a ha
        · exact ihy ih.2
      · rename_i hnlt
        rw [List.pairwise_cons] at ih ⊢
        constructor
        · intro a ha
          rcases List.mem_cons.mp ha with rfl | ha
          · exact le_of_not_lt hnlt
          · exact le_trans (ih.1 a ha) (le_of_not_lt hnlt)
        · rw [List.pairwise_cons]
          exact ih

/-- Stability at one inserted element: elements before the insertion point
all have key strictly greater than `key x`, so a filter on key value `v`
with `key x = v` sees `x` first. -/
theorem filter_insertDesc_of_eq {α : Type} (key : α → Rat) (x : α) (v : Rat)
    (l : List α) (hx : key x = v) :
    (insertDesc key x l).filter (fun a => decide (key a = v))
      = x :: l.filter (fun a => decide (key a = v)) := by
  induction l with
  | nil => simp [insertDesc, hx]
  | cons y ys ih =>
    simp only [insertDesc]
    split
    · rename_i hlt
      have hy : ¬ (key y = v) := by
        intro h
        rw [← hx] at h
        exact absurd h (ne_of_gt hlt)
      rw [List.filter_cons, List.filter_cons]
      simp only [hy, decide_eq_true_eq, if_neg]
      exact ih
    · rw [List.filter_cons]
      simp [hx]

theorem filter_insertDesc_of_ne {α : Type} (key : α → Rat) (x : α) (v : Rat)
    (l : List α) (hx : ¬ (key x = v)) :
    (insertDesc key x l).filter (fun a => decide (key a = v))
      = l.filter (fun a => decide (key a = v)) := by
  induction l with
  | nil => simp [insertDesc, hx]
  | cons y ys ih =>
    simp only [insertDesc]
    split
    · rw [List.filter_cons, List.filter_cons]
      split <;> simp only [ih]
    · rw [List.filter_cons]
      simp [hx]

/-- Stability of the sort: elements sharing one key value keep their
relative (insertion) order. -/
theorem sortDesc_filter_key {α : Type} (key : α → Rat) (v : Rat) (l : List α) :
    (sortDesc key l).filter (fun a => decide (key a = v))
      = l.filter (fun a => decide (key a = v)) := by
  induction l with
  | nil => simp [sortDesc]
  | cons x xs ih =>
    simp only [sortDesc]
    by_cases hx : key x = v
    · rw [filter_insertDesc_of_eq key x v _ hx, ih, List.filter_cons]
      simp [hx]
    · rw [filter_insertDesc_of_ne key x v _ hx, ih, List.filter_cons]
      simp [hx]

/-! ### `_calculate_period_rps` (and `_calculate_industry_period_rps`,
which is line-for-line the same computation) -/

/-- First loop of `_calculate_period_rps`: the period return
`(last close - anchor close) / anchor close` for every entity whose series
has at least `period + 1` points; shorter series are skipped (the length
guard), producing no error.  The anchor is the close `period` steps before
the latest one (`iloc[-(period+1)]`). -/
def periodReturns (stockData : List (String × Series)) (period : Nat) :
    List (String × Rat) :=
  stockData.filterMap (fun e =>
    if period + 1 ≤ e.2.length then
      some (e.1,
        (e.2.getD (e.2.length - 1) 0 - e.2.getD (e.2.length - (period + 1)) 0)
          / e.2.getD (e.2.length - (period + 1)) 0)
    else none)

/-- Scoring phase of `_calculate_period_rps`: sort the return map
descending by return (Python's stable sort) and assign
`(total - i) / total * 100` along the sorted order. -/
def rpsFromReturns (pr : List (String × Rat)) : List (String × Rat) :=
  if pr = [] then []
  else
    let sorted := sortDesc (fun e => e.2) pr
    let total := sorted.length
    sorted.enum.map (fun ie =>
      (ie.2.1, ((total - ie.1 : Nat) : Rat) / (total : Rat) * 100))

/-- `_calculate_period_rps` end to end. -/
def calculatePeriodRps (stockData : List (String × Series)) (period : Nat) :
    List (String × Rat) :=
  rpsFromReturns (periodReturns stockData period)

/-! ### `_calculate_composite_rps` -/

/-- `results` dict restricted to its `rps_<period>` entries: an association
list keyed by the period number. -/
abbrev RpsResults := List (Nat × List (String × Rat))

/-- Python `m[c]` / `c in m` for a score dict. -/
def lookupVal (m : List (String × Rat)) (c : String) : Option Rat :=
  (m.find? (fun e => e.1 == c)).map (fun e => e.2)

/-- Python `rps_results[f'rps_{p}']` / membership test. -/
def lookupPeriod (r : RpsResults) (p : Nat) : Option (List (String × Rat)) :=
  (r.find? (fun e => e.1 == p)).map (fun e => e.2)

/-- The percentile of entity `c` for period `p`, when both the period entry
and the entity entry exist (the `period_key in rps_results and code in
rps_results[period_key]` test). -/
def percentileOf (r : RpsResults) (p : Nat) (c : String) : Option Rat :=
  (lookupPeriod r p).bind (fun m => lookupVal m c)

/-- `all_codes`: the union of the keys of every period map (a Python `set`,
modelled as a deduplicated list). -/
def allCodes (r : RpsResults) : List String :=
  (r.flatMap (fun e => e.2.map Prod.fst)).dedup

/-- The weight table `{5: 0.4, 10: 0.3, 20: 0.2, 60: 0.1}` with the
`weights.get(period, 1.0 / len(periods))` fallback. -/
def weightOf (periods : List Nat) (p : Nat) : Rat :=
  if p = 5 then 2/5
  else if p = 10 then 3/10
  else if p = 20 then 1/5
  else if p = 60 then 1/10
  else 1 / (periods.length : Rat)

/-- The inner loop of `_calculate_composite_rps` for one entity:
accumulates `(total_score, total_weight)` over the requested periods. -/
def compositeAcc (r : RpsResults) (periods : List Nat) (c : String) :
    Rat × Rat :=
  periods.foldl (fun acc p =>
    match percentileOf r p c with
    | some v => (acc.1 + v * weightOf periods p, acc.2 + weightOf periods p)
    | none => acc) (0, 0)

/-- `_calculate_composite_rps`: entities with positive accumulated weight
get `total_score / total_weight`; the others produce no entry. -/
def calculateCompositeRps (r : RpsResults) (periods : List Nat) :
    List (String × Rat) :=
  (allCodes r).filterMap (fun c =>
    let acc := compositeAcc r periods c
    if 0 < acc.2 then some (c, acc.1 / acc.2) else none)

/-- Modelled from the spec formula (for the refinement claim about the
composite): numerator `Σ (percentile_p * weight_p)` over the requested
periods where the entity has a percentile. -/
def specCompositeNum (r : RpsResults) (periods : List Nat) (c : String) :
    Rat :=
  (periods.filterMap (fun p =>
    (percentileOf r p c).map (fun v => v * weightOf periods p))).sum

/-- Modelled from the spec formula: denominator `Σ weight_p` over the
requested periods where the entity has a percentile. -/
def specCompositeDen (r : RpsResults) (periods : List Nat) (c : String) :
    Rat :=
  (periods.filterMap (fun p =>
    (percentileOf r p c).map (fun _ => weightOf periods p))).sum

/-! ### `_get_single_strength_level` and `get_rps_ranking` -/

/-- `_get_single_strength_level`. -/
def getSingleStrengthLevel (s : Rat) : String :=
  if 90 ≤ s then "极强"
  else if 80 ≤ s then "强势"
  else if 60 ≤ s then "较强"
  else if 40 ≤ s then "中等"
  else if 20 ≤ s then "较弱"
  else "弱势"

/-- One element of the list returned by `get_rps_ranking`. -/
structure RankEntry where
  code : String
  rpsScore : Rat
  rank : Nat
  level : String
deriving DecidableEq

/-- `get_rps_ranking`: sort by score descending (stable), truncate to
`top_n`, attach the 1-based rank and the strength level. -/
def getRpsRanking (rpsData : List (String × Rat)) (topN : Nat) :
    List RankEntry :=
  let sorted := sortDesc (fun e => e.2) rpsData
  (sorted.take topN).enum.map (fun ie =>
    ⟨ie.2.1, ie.2.2, ie.1 + 1, getSingleStrengthLevel ie.2.2⟩)

/-! ### `_analyze_industry_rotation` -/

/-- One element of `rotation_opportunities`. -/
structure RotationOpp where
  industry : String
  shortRps : Rat
  longRps : Rat
  momentum : Rat
deriving DecidableEq

/-- `rotation_opportunities`: for every entity of the short-period map that
is also in the long-period map, record both scores and the momentum
`short - long`. -/
def rotationOpportunities (shortRps longRps : List (String × Rat)) :
    List RotationOpp :=
  shortRps.filterMap (fun e =>
    (lookupVal longRps e.1).map (fun lv => ⟨e.1, e.2, lv, e.2 - lv⟩))

/-- The momentum-sorted sequence (descending, Python's stable sort). -/
def sortedOpps (shortRps longRps : List (String × Rat)) : List RotationOpp :=
  sortDesc (fun o => o.momentum) (rotationOpportunities shortRps longRps)

/-- `hot_industries = rotation_opportunities[:5]` after the sort. -/
def hotIndustries (shortRps longRps : List (String × Rat)) :
    List RotationOpp :=
  (sortedOpps shortRps longRps).take 5

/-- `cold_industries = rotation_opportunities[-5:]` after the sort. -/
def coldIndustries (shortRps longRps : List (String × Rat)) :
    List RotationOpp :=
  (sortedOpps shortRps longRps).drop ((sortedOpps shortRps longRps).length - 5)

/-- `rotation_signal` from the mean momentum (`np.mean` of an empty list is
NaN, every comparison with which is false, hence `neutral`). -/
def rotationSignal (opps : List RotationOpp) : String :=
  if opps = [] then "neutral"
  else
    let avg := (opps.map (fun o => o.momentum)).sum / (opps.length : Rat)
    if 10 < avg then "strong_rotation"
    else if 5 < avg then "mild_rotation"
    else if avg < -5 then "trend_continuation"
    else "neutral"

/-- The dict returned by `_analyze_industry_rotation`. -/
structure RotationAnalysis where
  hot : List RotationOpp
  cold : List RotationOpp
  signal : String
deriving DecidableEq

/-- `_analyze_industry_rotation` over already-fetched industry data:
short period = `periods[0]`, long period = `periods[-1]` (callers guarantee
a non-empty period list; `headD`/`getLastD` agree with Python indexing
there). -/
def analyzeIndustryRotation (industryData : List (String × Series))
    (periods : List Nat) : RotationAnalysis :=
  let s := calculatePeriodRps industryData (periods.headD 0)
  let l := calculatePeriodRps industryData (periods.getLastD 0)
  ⟨hotIndustries s l, coldIndustries s l,
    rotationSignal (rotationOpportunities s l)⟩

/-! ### `_is_cache_valid` and the cache key of `calculate_industry_rps` -/

/-- `self.cache_timeout = 3600  # 1-hour cache`. -/
def cacheTimeout : Nat := 3600

/-- `timedelta.seconds` of `now - created_at` (wall-clock instants in whole
seconds, `now ≥ created_at`): the seconds component of the difference,
i.e. the elapsed seconds with whole days discarded. -/
def tdSeconds (createdAt now : Nat) : Nat :=
  (now - createdAt) % 86400

/-- `_is_cache_valid`: the key must be present in both `rps_cache` and
`last_update`, and `(datetime.now() - last_update[key]).seconds` must be
below `cache_timeout`. -/
def isCacheValid {α : Type} (cache : List (String × α))
    (lastUpdate : List (String × Nat)) (key : String) (now : Nat) : Bool :=
  match cache.find? (fun e => e.1 == key),
        (lastUpdate.find? (fun e => e.1 == key)).map (fun e => e.2) with
  | some _, some createdAt => tdSeconds createdAt now < cacheTimeout
  | _, _ => false

/-- Decimal digit character, `chr(48 + d)`. -/
def digitChar (d : Nat) : Char := Char.ofNat (48 + d)

/-- Fuel-driven decimal representation (most significant digit first). -/
def natDigitsAux : Nat → Nat → List Char
  | 0, _ => []
  | fuel + 1, n =>
    if n < 10 then [digitChar n]
    else natDigitsAux fuel (n / 10) ++ [digitChar (n % 10)]

/-- Python `str(n)` for a natural number, as its list of characters. -/
def natDigits (n : Nat) : List Char := natDigitsAux (n + 1) n

/-- Python `'-'.join(tokens)` over character lists. -/
def joinHyphen : List (List Char) → List Char
  | [] => []
  | [t] => t
  | t :: u :: ts => t ++ '-' :: joinHyphen (u :: ts)

/-- The cache key of `calculate_industry_rps`:
`f"industry_rps_{'-'.join(map(str, periods))}"`, modelled as its character
list. -/
def cacheKeyChars (periods : List Nat) : List Char :=
  "industry_rps_".data ++ joinHyphen (periods.map natDigits)

/-! ### Public entry points

A fetch function `String → Option Series` models the per-identifier
outcome of `get_single_stock_data` (resp. the per-industry
`ak.index_zh_a_hist` call): `none` is a failed or empty fetch, which the
source catches for that identifier alone and skips. -/

/-- `_get_stocks_data`: the batch is truncated to the first 100 codes
(`stock_codes[:100]`); each code whose fetch succeeds contributes its
series, failed codes are skipped. -/
def getStocksData (stockCodes : List String)
    (fetch : String → Option Series) : List (String × Series) :=
  (stockCodes.take 100).filterMap (fun c =>
    (fetch c).map (fun s => (c, s)))

/-- The fixed registry of the 28 sector index codes in `_get_industry_data`. -/
def industryCodes : List String :=
  ["801010", "801020", "801030", "801040", "801050", "801080", "801110",
   "801120", "801130", "801140", "801150", "801160", "801170", "801180",
   "801200", "801210", "801230", "801710", "801720", "801730", "801740",
   "801750", "801760", "801770", "801780", "801790", "801880", "801890"]

/-- `_get_industry_data`: per-code fetch over the fixed registry, failures
skipped. -/
def getIndustryData (fetch : String → Option Series) :
    List (String × Series) :=
  industryCodes.filterMap (fun c => (fetch c).map (fun s => (c, s)))

/-- The `results` dict of `calculate_stock_rps`. -/
structure StockRpsResult where
  periodRps : RpsResults
  composite : List (String × Rat)
  levels : List (String × String)
deriving DecidableEq

/-- `calculate_stock_rps`.  `none` models the empty dict `{}` returned when
the period list is empty (`max(periods)` raises, the outer handler catches)
or when no stock data could be fetched. -/
def calculateStockRps (stockCodes : List String) (periods : List Nat)
    (fetch : String → Option Series) : Option StockRpsResult :=
  if periods = [] then none
  else
    let data := getStocksData stockCodes fetch
    if data = [] then none
    else
      let pr : RpsResults := periods.map (fun p => (p, calculatePeriodRps data p))
      let comp := calculateCompositeRps pr periods
      some ⟨pr, comp, comp.map (fun e => (e.1, getSingleStrengthLevel e.2))⟩

/-- The `results` dict of `calculate_industry_rps` (the cache book-keeping
is carried by `isCacheValid` above). -/
structure IndustryRpsResult where
  periodRps : RpsResults
  composite : List (String × Rat)
  rotation : RotationAnalysis
deriving DecidableEq

/-- `calculate_industry_rps` on a cache miss.  `none` models the empty dict
`{}` returned when the period list is empty or no industry data could be
fetched. -/
def calculateIndustryRps (periods : List Nat)
    (fetch : String → Option Series) : Option IndustryRpsResult :=
  if periods = [] then none
  else
    let data := getIndustryData fetch
    if data = [] then none
    else
      let pr : RpsResults := periods.map (fun p => (p, calculatePeriodRps data p))
      some ⟨pr, calculateCompositeRps pr periods,
        analyzeIndustryRotation data periods⟩

/-! ### Helper lemmas -/

theorem enum_map_pair_snd {α β γ : Type} (l : List α) (f1 : α → β)
    (g : Nat → γ) :
    (l.enum.map (fun ie => (f1 ie.2, g ie.1))).map Prod.snd
      = (List.range l.length).map g := by
  rw [List.map_map]
  have h : (Prod.snd ∘ fun ie : Nat × α => (f1 ie.2, g ie.1))
      = g ∘ Prod.fst := rfl
  rw [h, ← List.map_map, List.enum_map_fst]

theorem enum_map_pair_fst {α β γ : Type} (l : List α) (f1 : α → β)
    (g : Nat → γ) :
    (l.enum.map (fun ie => (f1 ie.2, g ie.1))).map Prod.fst = l.map f1 := by
  rw [List.map_map]
  have h : (Prod.fst ∘ fun ie : Nat × α => (f1 ie.2, g ie.1))
      = f1 ∘ Prod.snd := rfl
  rw [h, ← List.map_map, List.enum_map_snd]

/-! ### C1: the percentile ranker is a bijection onto
`{(N-i)/N*100 : i = 0..N-1}` -/

/-- C1.  For every non-empty return map (keys distinct, as in a Python
dict) of size `N`, the list of output percentile scores is exactly
`[(N-0)/N*100, (N-1)/N*100, …, (N-(N-1))/N*100]` (hence, as a multiset,
exactly `{(N-i)/N*100 : i = 0..N-1}`), the output keys are a permutation
of the input keys with no key repeated (each entity with a defined return
receives exactly one percentile), and no percentile value is repeated
(the assignment is a strict bijection). -/
theorem percentileRanker_bijection (pr : List (String × Rat))
    (hne : pr ≠ []) (hnd : (pr.map Prod.fst).Nodup) :
    (rpsFromReturns pr).map Prod.snd
        = (List.range pr.length).map
            (fun i => ((pr.length - i : Nat) : Rat) / (pr.length : Rat) * 100)
    ∧ List.Perm ((rpsFromReturns pr).map Prod.fst) (pr.map Prod.fst)
    ∧ ((rpsFromReturns pr).map Prod.fst).Nodup
    ∧ ((rpsFromReturns pr).map Prod.snd).Nodup := by
  have hlen : (sortDesc (fun e => e.2) pr).length = pr.length :=
    length_sortDesc _ _
  have hsnd : (rpsFromReturns pr).map Prod.snd
      = (List.range pr.length).map
          (fun i => ((pr.length - i : Nat) : Rat) / (pr.length : Rat) * 100) := by
    rw [rpsFromReturns, if_neg hne]
    rw [enum_map_pair_snd (sortDesc (fun e => e.2) pr) Prod.fst
      (fun i => (((sortDesc (fun e => e.2) pr).length - i : Nat) : Rat)
        / ((sortDesc (fun e => e.2) pr).length : Rat) * 100)]
    rw [hlen]
  have hfst : (rpsFromReturns pr).map Prod.fst
      = (sortDesc (fun e => e.2) pr).map Prod.fst := by
    rw [rpsFromReturns, if_neg hne]
    exact enum_map_pair_fst (sortDesc (fun e => e.2) pr) Prod.fst
      (fun i => (((sortDesc (fun e => e.2) pr).length - i : Nat) : Rat)
        / ((sortDesc (fun e => e.2) pr).length : Rat) * 100)
  have hperm : List.Perm ((rpsFromReturns pr).map Prod.fst)
      (pr.map Prod.fst) := by
    rw [hfst]
    exact (sortDesc_perm (fun e => e.2) pr).map Prod.fst
  have hN : 0 < pr.length := List.length_pos.mpr hne
  refine ⟨hsnd, hperm, hperm.nodup_iff.mpr hnd, ?_⟩
  rw [hsnd]
  refine List.Nodup.map_on ?_ (List.nodup_range _)
  intro i hi j hj hij
  rw [List.mem_range] at hi hj
  have hlq : (pr.length : Rat) ≠ 0 := by
    exact_mod_cast Nat.pos_iff_ne_zero.mp hN
  have h100 : (100 : Rat) ≠ 0 := by norm_num
  have h1 : ((pr.length - i : Nat) : Rat) / (pr.length : Rat)
      = ((pr.length - j : Nat) : Rat) / (pr.length : Rat) :=
    mul_right_cancel₀ h100 hij
  rw [div_eq_div_iff hlq hlq] at h1
  have h2 : ((pr.length - i : Nat) : Rat) = ((pr.length - j : Nat) : Rat) :=
    mul_right_cancel₀ hlq h1
  have h3 : pr.length - i = pr.length - j := Nat.cast_injective h2
  omega

/-! ### C8: inclusion in a period's return map is exactly the length
guard -/

/-- C8.  For every series map and period, the period-return map has the
keys of exactly those entities whose series has at least `period + 1`
points (in input order); equivalently an entity key is present iff some
entry of the input carries it with a sufficiently long series.  An entity
with fewer points is skipped by the length guard (no error is possible:
the computation is total). -/
theorem periodReturn_length_guard (stockData : List (String × Series))
    (period : Nat) :
    (periodReturns stockData period).map Prod.fst
        = (stockData.filter
            (fun e => decide (period + 1 ≤ e.2.length))).map Prod.fst
    ∧ ∀ c : String,
        (c ∈ (periodReturns stockData period).map Prod.fst
          ↔ ∃ e ∈ stockData, e.1 = c ∧ period + 1 ≤ e.2.length) := by
  have hkeys : (periodReturns stockData period).map Prod.fst
      = (stockData.filter
          (fun e => decide (period + 1 ≤ e.2.length))).map Prod.fst := by
    induction stockData with
    | nil => rfl
    | cons e es ih =>
      rw [periodReturns, List.filterMap_cons]
      by_cases hlen : period + 1 ≤ e.2.length
      · rw [if_pos hlen, List.filter_cons_of_pos (by simpa using hlen),
          List.map_cons, List.map_cons, ← periodReturns, ih]
      · rw [if_neg hlen, List.filter_cons_of_neg (by simpa using hlen),
          ← periodReturns, ih]
  refine ⟨hkeys, fun c => ?_⟩
  rw [hkeys]
  simp only [List.mem_map, List.mem_filter, decide_eq_true_eq]
  constructor
  · rintro ⟨e, ⟨he, hl⟩, rfl⟩
    exact ⟨e, he, rfl, hl⟩
  · rintro ⟨e, he, rfl, hl⟩
    exact ⟨e, ⟨he, hl⟩, rfl⟩

/-! ### C2: the composite score is the spec's weighted average -/

theorem foldl_composite_step (w : Nat → Rat) (pv : Nat → Option Rat) :
    ∀ (ps : List Nat) (a b : Rat),
      ps.foldl (fun acc p =>
        match pv p with
        | some v => (acc.1 + v * w p, acc.2 + w p)
        | none => acc) (a, b)
      = (a + (ps.filterMap (fun p => (pv p).map (fun v => v * w p))).sum,
         b + (ps.filterMap (fun p => (pv p).map (fun _ => w p))).sum) := by
  intro ps
  induction ps with
  | nil => intro a b; simp
  | cons p ps ih =>
    intro a b
    rw [List.foldl_cons, List.filterMap_cons, List.filterMap_cons]
    cases hpv : pv p with
    | none => simp only [hpv, ih, Option.map_none']
    | some v =>
      simp only [hpv, Option.map_some', ih, List.sum_cons]
      rw [add_assoc, add_assoc]

theorem compositeAcc_eq (r : RpsResults) (periods : List Nat) (c : String) :
    compositeAcc r periods c
      = (specCompositeNum r periods c, specCompositeDen r periods c) := by
  have h := foldl_composite_step (fun p => weightOf periods p)
    (fun p => percentileOf r p c) periods 0 0
  simpa [compositeAcc, specCompositeNum, specCompositeDen] using h

theorem lookupVal_filterMap_ite (codes : List String) (P : String → Prop)
    [DecidablePred P] (g : String → Rat) (c : String) :
    lookupVal (codes.filterMap
        (fun x => if P x then some (x, g x) else none)) c
      = if c ∈ codes ∧ P c then some (g c) else none := by
  induction codes with
  | nil => simp [lookupVal]
  | cons x xs ih =>
    rw [List.filterMap_cons]
    by_cases hP : P x
    · rw [if_pos hP]
      by_cases hxc : x = c
      · subst hxc
        rw [lookupVal, List.find?_cons_of_pos _ (by simp)]
        simp [hP]
      · rw [lookupVal, List.find?_cons_of_neg _ (by simpa using hxc),
          ← lookupVal, ih]
        have hiff : (c ∈ xs ∧ P c) ↔ (c ∈ x :: xs ∧ P c) := by
          constructor
          · rintro ⟨hm, hp⟩
            exact ⟨List.mem_cons_of_mem _ hm, hp⟩
          · rintro ⟨hm, hp⟩
            rcases List.mem_cons.mp hm with h | h
            · exact absurd h.symm hxc
            · exact ⟨h, hp⟩
        exact if_congr hiff rfl rfl
    · rw [if_neg hP]
      rw [ih]
      have hiff : (c ∈ xs ∧ P c) ↔ (c ∈ x :: xs ∧ P c) := by
        constructor
        · rintro ⟨hm, hp⟩
          exact ⟨List.mem_cons_of_mem _ hm, hp⟩
        · rintro ⟨hm, hp⟩
          rcases List.mem_cons.mp hm with h | h
          · subst h
            exact absurd hp hP
          · exact ⟨h, hp⟩
      exact if_congr hiff rfl rfl

theorem mem_allCodes_of_percentile (r : RpsResults) (p : Nat) (c : String)
    (v : Rat) (h : percentileOf r p c = some v) : c ∈ allCodes r := by
  rw [percentileOf] at h
  cases hlp : lookupPeriod r p with
  | none => rw [hlp] at h; exact absurd h (by simp)
  | some m =>
    rw [hlp, Option.some_bind] at h
    rw [lookupPeriod] at hlp
    cases hf : r.find? (fun e => e.1 == p) with
    | none => rw [hf] at hlp; exact absurd hlp (by simp)
    | some e0 =>
      rw [hf] at hlp
      have he0 : e0 ∈ r := List.mem_of_find?_eq_some hf
      have hm : e0.2 = m := by simpa using hlp
      rw [lookupVal] at h
      cases hf1 : m.find? (fun e => e.1 == c) with
      | none => rw [hf1] at h; exact absurd h (by simp)
      | some e1 =>
        have he1 : e1 ∈ m := List.mem_of_find?_eq_some hf1
        have hc : e1.1 = c := by
          have := List.find?_some hf1
          simpa using this
        rw [allCodes, List.mem_dedup, List.mem_flatMap]
        exact ⟨e0, he0, by
          rw [hm]
          exact List.mem_map.mpr ⟨e1, he1, hc⟩⟩

theorem weightOf_pos (periods : List Nat) (p : Nat) (hp : p ∈ periods) :
    0 < weightOf periods p := by
  have hlen : 0 < periods.length := List.length_pos.mpr (List.ne_nil_of_mem hp)
  rw [weightOf]
  split
  · norm_num
  · split
    · norm_num
    · split
      · norm_num
      · split
        · norm_num
        · have : (0 : Rat) < (periods.length : Rat) := by exact_mod_cast hlen
          positivity

theorem specCompositeDen_pos_iff (r : RpsResults) (periods : List Nat)
    (c : String) :
    0 < specCompositeDen r periods c
      ↔ ∃ p ∈ periods, (percentileOf r p c).isSome := by
  constructor
  · intro hpos
    by_contra hno
    push_neg at hno
    have hnil : periods.filterMap
        (fun p => (percentileOf r p c).map (fun _ => weightOf periods p))
        = [] := by
      rw [List.filterMap_eq_nil_iff]
      intro p hp
      have h2 := hno p hp
      cases hv : percentileOf r p c with
      | none => rfl
      | some v => rw [hv] at h2; simp at h2
    rw [specCompositeDen, hnil] at hpos
    exact absurd hpos (by norm_num)
  · rintro ⟨p0, hp0, hs0⟩
    cases hv0 : percentileOf r p0 c with
    | none => rw [hv0] at hs0; exact absurd hs0 (by simp)
    | some v0 =>
      rw [specCompositeDen]
      apply List.sum_pos
      · intro x hx
        rw [List.mem_filterMap] at hx
        obtain ⟨p, hp, hpx⟩ := hx
        cases hv : percentileOf r p c with
        | none => rw [hv] at hpx; exact absurd hpx (by simp)
        | some v =>
          rw [hv] at hpx
          have : weightOf periods p = x := by simpa using hpx
          rw [← this]
          exact weightOf_pos periods p hp
      · apply List.ne_nil_of_mem (a := weightOf periods p0)
        rw [List.mem_filterMap]
        exact ⟨p0, hp0, by rw [hv0]; simp⟩

/-- C2.  For every `rps_<period>` result family, requested period list and
entity: the entity has a composite entry iff it has a percentile in at
least one requested period, and that entry is exactly
`Σ (percentile_p * weight_p) / Σ weight_p` over the requested periods
where the entity has a percentile, with the table weights
`{5: 0.4, 10: 0.3, 20: 0.2, 60: 0.1}` and fallback `1/len(periods)`. -/
theorem compositeScorer_weighted_average (r : RpsResults)
    (periods : List Nat) (c : String) :
    lookupVal (calculateCompositeRps r periods) c
      = (if 0 < specCompositeDen r periods c
          then some (specCompositeNum r periods c
            / specCompositeDen r periods c)
          else none)
    ∧ (0 < specCompositeDen r periods c
        ↔ ∃ p ∈ periods, (percentileOf r p c).isSome) := by
  refine ⟨?_, specCompositeDen_pos_iff r periods c⟩
  have hlk : lookupVal (calculateCompositeRps r periods) c
      = if c ∈ allCodes r ∧ 0 < (compositeAcc r periods c).2
        then some ((compositeAcc r periods c).1
          / (compositeAcc r periods c).2)
        else none :=
    lookupVal_filterMap_ite (allCodes r)
      (fun x => 0 < (compositeAcc r periods x).2)
      (fun x => (compositeAcc r periods x).1 / (compositeAcc r periods x).2) c
  rw [hlk, compositeAcc_eq]
  by_cases hpos : 0 < specCompositeDen r periods c
  · have hex := (specCompositeDen_pos_iff r periods c).mp hpos
    obtain ⟨p0, hp0, hs0⟩ := hex
    cases hv0 : percentileOf r p0 c with
    | none => rw [hv0] at hs0; exact absurd hs0 (by simp)
    | some v0 =>
      have hmem : c ∈ allCodes r := mem_allCodes_of_percentile r p0 c v0 hv0
      rw [if_pos ⟨hmem, hpos⟩, if_pos hpos]
  · rw [if_neg hpos, if_neg (fun h => hpos h.2)]

/-! ### C3: the heating and cooling lists -/

/-- C3 counterexample.  With short-period percentiles
`{a: 100, b: 50}` and long-period percentiles `{a: 50, b: 100}`, the
momenta are `a: 50, b: -50` and the cooling list comes out in momentum
order `[50, -50]` — descending, with the most negative momentum last —
so the cooling list is not ascending (most negative first) as claimed. -/
theorem coolingList_not_ascending :
    (coldIndustries [("a", 100), ("b", 50)] [("a", 50), ("b", 100)]).map
        RotationOpp.momentum = [50, -50]
    ∧ ¬ (coldIndustries [("a", 100), ("b", 50)]
          [("a", 50), ("b", 100)]).Pairwise
        (fun x y => x.momentum ≤ y.momentum) := by
  with_unfolding_all decide

/-- C3 amended.  The heating list is the first five and the cooling list
the last five elements of the momentum-sorted (descending) sequence of
common entities: the heating list is the top-K by momentum in descending
order, and the cooling list is the bottom-K by momentum, also in
*descending* order (most negative momentum last, not first). -/
theorem rotation_heating_cooling_lists (s l : List (String × Rat)) :
    hotIndustries s l ++ (sortedOpps s l).drop 5 = sortedOpps s l
    ∧ (sortedOpps s l).take ((sortedOpps s l).length - 5)
        ++ coldIndustries s l = sortedOpps s l
    ∧ List.Perm (sortedOpps s l) (rotationOpportunities s l)
    ∧ (hotIndustries s l).Pairwise (fun a b => b.momentum ≤ a.momentum)
    ∧ (coldIndustries s l).Pairwise (fun a b => b.momentum ≤ a.momentum)
    ∧ (∀ x ∈ hotIndustries s l, ∀ y ∈ (sortedOpps s l).drop 5,
        y.momentum ≤ x.momentum)
    ∧ (∀ x ∈ (sortedOpps s l).take ((sortedOpps s l).length - 5),
        ∀ y ∈ coldIndustries s l, y.momentum ≤ x.momentum) := by
  have hpw : (sortedOpps s l).Pairwise (fun a b => b.momentum ≤ a.momentum) :=
    sortDesc_pairwise _ _
  have hsplit5 := List.take_append_drop 5 (sortedOpps s l)
  have hsplitc :=
    List.take_append_drop ((sortedOpps s l).length - 5) (sortedOpps s l)
  have hpw5 : ((sortedOpps s l).take 5
      ++ (sortedOpps s l).drop 5).Pairwise
      (fun a b => b.momentum ≤ a.momentum) := by rwa [hsplit5]
  have hpwc : ((sortedOpps s l).take ((sortedOpps s l).length - 5)
      ++ (sortedOpps s l).drop ((sortedOpps s l).length - 5)).Pairwise
      (fun a b => b.momentum ≤ a.momentum) := by rwa [hsplitc]
  have h5 := List.pairwise_append.mp hpw5
  have hc := List.pairwise_append.mp hpwc
  exact ⟨hsplit5, hsplitc, sortDesc_perm _ _, h5.1, hc.2.1,
    fun x hx y hy => h5.2.2 x hx y hy, fun x hx y hy => hc.2.2 x hx y hy⟩

/-! ### C10: for 1 to 9 common entities the two lists overlap -/

/-- C10.  Whenever the number of entities common to the short- and
long-period maps (the length of `rotation_opportunities`) is between 1
and 9, some entity appears in both the heating and the cooling list,
because both are slices (first five, last five) of the same
momentum-sorted sequence. -/
theorem heating_cooling_overlap (s l : List (String × Rat))
    (h1 : 1 ≤ (rotationOpportunities s l).length)
    (h9 : (rotationOpportunities s l).length ≤ 9) :
    ∃ x, x ∈ hotIndustries s l ∧ x ∈ coldIndustries s l := by
  have hlen : (sortedOpps s l).length = (rotationOpportunities s l).length :=
    length_sortDesc _ _
  have hidx : (sortedOpps s l).length - 5 < (sortedOpps s l).length := by
    omega
  refine ⟨(sortedOpps s l).get ⟨(sortedOpps s l).length - 5, hidx⟩, ?_, ?_⟩
  · rw [List.get_eq_getElem]
    have hj : (sortedOpps s l).length - 5 < 5 := by omega
    rw [List.getElem_take' (sortedOpps s l) hidx hj]
    exact List.getElem_mem _
  · rw [List.get_eq_getElem, coldIndustries]
    have h0 : ((sortedOpps s l).length - 5) + 0 < (sortedOpps s l).length := by
      omega
    have hd := List.getElem_drop' (sortedOpps s l) h0
    refine List.mem_iff_getElem.mpr ⟨0, ?_, ?_⟩
    · rw [List.length_drop]
      omega
    · exact hd.symm

/-- Witness for C10 at one common entity: with short map `{a: 100}` and
long map `{a: 40}` there is exactly one rotation record, and it is in
both lists. -/
theorem heating_cooling_overlap_witness :
    1 ≤ (rotationOpportunities [("a", 100)] [("a", 40)]).length
    ∧ (rotationOpportunities [("a", 100)] [("a", 40)]).length ≤ 9
    ∧ ∃ x, x ∈ hotIndustries [("a", 100)] [("a", 40)]
        ∧ x ∈ coldIndustries [("a", 100)] [("a", 40)] :=
  ⟨by with_unfolding_all decide, by with_unfolding_all decide,
    heating_cooling_overlap [("a", 100)] [("a", 40)]
      (by with_unfolding_all decide) (by with_unfolding_all decide)⟩

/-! ### C5: ordering and tie-breaking of the two sorts -/

/-- C5 counterexample.  The return maps `[("a",1), ("b",1)]` and
`[("b",1), ("a",1)]` contain the same entity-value pairs, yet the ranker
gives `a` percentile 100 under the first insertion order and 50 under the
second: ties are not broken by identifier lexical order, and the output
depends on insertion order. -/
theorem tie_break_not_lexical :
    List.Perm [(("a" : String), (1 : Rat)), ("b", 1)] [("b", 1), ("a", 1)]
    ∧ lookupVal (rpsFromReturns [("a", 1), ("b", 1)]) "a" = some 100
    ∧ lookupVal (rpsFromReturns [("b", 1), ("a", 1)]) "a" = some 50 := by
  with_unfolding_all decide

/-- C5 amended.  Both the percentile ranker and the ranking service sort
by value descending; ties are broken by the *insertion order* of the
input map (Python's stable sort), not by identifier lexical order, so the
output ordering depends on insertion order.  Concretely: the sort is a
permutation of its input, is descending in the value, keeps equal-valued
entries in input order, and `get_rps_ranking` lists scores descending
with 1-based consecutive ranks. -/
theorem ranking_sort_stable (pr d : List (String × Rat)) (topN : Nat)
    (v : Rat) :
    List.Perm (sortDesc (fun e => e.2) pr) pr
    ∧ (sortDesc (fun e => e.2) pr).Pairwise (fun a b => b.2 ≤ a.2)
    ∧ (sortDesc (fun e => e.2) pr).filter (fun e => decide (e.2 = v))
        = pr.filter (fun e => decide (e.2 = v))
    ∧ (getRpsRanking d topN).map RankEntry.rpsScore
        = ((sortDesc (fun e => e.2) d).take topN).map Prod.snd
    ∧ ((getRpsRanking d topN).map RankEntry.rpsScore).Pairwise
        (fun a b => b ≤ a)
    ∧ (getRpsRanking d topN).map RankEntry.rank
        = List.range' 1 (min topN d.length) := by
  have hscore : (getRpsRanking d topN).map RankEntry.rpsScore
      = ((sortDesc (fun e => e.2) d).take topN).map Prod.snd := by
    rw [getRpsRanking, List.map_map]
    have h : (RankEntry.rpsScore ∘ fun ie : Nat × (String × Rat) =>
        (⟨ie.2.1, ie.2.2, ie.1 + 1, getSingleStrengthLevel ie.2.2⟩ : RankEntry))
        = Prod.snd ∘ Prod.snd := rfl
    rw [h, ← List.map_map, List.enum_map_snd]
  have hpw : ((sortDesc (fun e => e.2) d).take topN).Pairwise
      (fun a b => b.2 ≤ a.2) :=
    List.Pairwise.sublist (List.take_sublist _ _) (sortDesc_pairwise _ _)
  refine ⟨sortDesc_perm _ _, sortDesc_pairwise _ _, sortDesc_filter_key _ v pr,
    hscore, ?_, ?_⟩
  · rw [hscore, List.pairwise_map]
    exact hpw
  · rw [getRpsRanking, List.map_map]
    have h : (RankEntry.rank ∘ fun ie : Nat × (String × Rat) =>
        (⟨ie.2.1, ie.2.2, ie.1 + 1, getSingleStrengthLevel ie.2.2⟩ : RankEntry))
        = (fun i => i + 1) ∘ Prod.fst := rfl
    rw [h, ← List.map_map, List.enum_map_fst, List.length_take,
      length_sortDesc]
    rw [List.range'_eq_map_range]
    exact List.map_congr_left (fun i _ => Nat.add_comm i 1)

/-! ### C4: cache validity uses the seconds *component*, not total
elapsed seconds -/

/-- C4 demonstration of the code bug.  With an entry created at second 0
and a lookup at second 86500 (one day plus 100 seconds later),
`_is_cache_valid` reports the entry valid, because
`(now - created).seconds` discards whole days (86500 mod 86400 = 100 <
3600) — yet the total elapsed time 86500 s is far beyond the 3600 s TTL,
so under the claimed `now - createdAt < ttl` rule the entry would be
invalid. -/
theorem cacheValid_ignores_whole_days :
    isCacheValid [("k", (0 : Nat))] [("k", 0)] "k" 86500 = true
    ∧ cacheTimeout ≤ 86500 - 0 := by
  decide

/-! ### C7: the cache key is injective in the ordered period list but
not canonicalized -/

theorem digitChar_ne_hyphen (d : Nat) (h : d < 10) : digitChar d ≠ '-' := by
  interval_cases d <;> decide

theorem digitChar_toNat (d : Nat) (h : d < 10) :
    (digitChar d).toNat = 48 + d := by
  interval_cases d <;> decide

theorem natDigitsAux_no_hyphen :
    ∀ (fuel n : Nat), n < fuel → '-' ∉ natDigitsAux fuel n := by
  intro fuel
  induction fuel with
  | zero => intro n hn; omega
  | succ fuel ih =>
    intro n hn
    rw [natDigitsAux]
    by_cases h10 : n < 10
    · rw [if_pos h10]
      intro hmem
      rcases List.mem_singleton.mp hmem with h
      exact digitChar_ne_hyphen n h10 h.symm
    · rw [if_neg h10]
      intro hmem
      rcases List.mem_append.mp hmem with h | h
      · have hdiv : n / 10 < fuel := by
          have := Nat.div_lt_self (by omega : 0 < n) (by omega : 1 < 10)
          omega
        exact ih (n / 10) hdiv h
      · rcases List.mem_singleton.mp h with h
        exact digitChar_ne_hyphen (n % 10) (Nat.mod_lt n (by omega)) h.symm

theorem natDigits_no_hyphen (n : Nat) : '-' ∉ natDigits n :=
  natDigitsAux_no_hyphen (n + 1) n (Nat.lt_succ_self n)

theorem natDigitsAux_ne_nil (fuel n : Nat) (h : n < fuel) :
    natDigitsAux fuel n ≠ [] := by
  cases fuel with
  | zero => omega
  | succ fuel =>
    rw [natDigitsAux]
    by_cases h10 : n < 10
    · rw [if_pos h10]
      exact List.cons_ne_nil _ _
    · rw [if_neg h10]
      exact List.append_ne_nil_of_right_ne_nil _ (List.cons_ne_nil _ _)

theorem natDigits_ne_nil (n : Nat) : natDigits n ≠ [] :=
  natDigitsAux_ne_nil (n + 1) n (Nat.lt_succ_self n)

/-- The value of a digit string (left fold, most significant first). -/
def digitsVal (cs : List Char) : Nat :=
  cs.foldl (fun a c => 10 * a + (c.toNat - 48)) 0

theorem digitsVal_natDigitsAux :
    ∀ (fuel n : Nat), n < fuel → digitsVal (natDigitsAux fuel n) = n := by
  intro fuel
  induction fuel with
  | zero => intro n hn; omega
  | succ fuel ih =>
    intro n hn
    rw [natDigitsAux]
    by_cases h10 : n < 10
    · rw [if_pos h10]
      show 10 * 0 + ((digitChar n).toNat - 48) = n
      rw [digitChar_toNat n h10]
      omega
    · rw [if_neg h10]
      have hdiv : n / 10 < fuel := by
        have := Nat.div_lt_self (by omega : 0 < n) (by omega : 1 < 10)
        omega
      rw [digitsVal, List.foldl_append]
      have hval : (natDigitsAux fuel (n / 10)).foldl
          (fun a c => 10 * a + (c.toNat - 48)) 0 = n / 10 := ih (n / 10) hdiv
      rw [hval]
      show 10 * (n / 10) + ((digitChar (n % 10)).toNat - 48) = n
      rw [digitChar_toNat (n % 10) (Nat.mod_lt n (by omega))]
      omega

theorem natDigits_injective : Function.Injective natDigits := by
  intro m n h
  have hm : digitsVal (natDigits m) = m :=
    digitsVal_natDigitsAux (m + 1) m (Nat.lt_succ_self m)
  have hn : digitsVal (natDigits n) = n :=
    digitsVal_natDigitsAux (n + 1) n (Nat.lt_succ_self n)
  rw [← hm, ← hn, h]

/-- Python `str.split('-')`, the inverse of `joinHyphen` on hyphen-free
tokens. -/
def splitHyphen : List Char → List (List Char)
  | [] => [[]]
  | c :: rest =>
    if c = '-' then [] :: splitHyphen rest
    else
      match splitHyphen rest with
      | [] => [[c]]
      | t :: ts => (c :: t) :: ts

theorem splitHyphen_no_hyphen (t : List Char) (h : '-' ∉ t) :
    splitHyphen t = [t] := by
  induction t with
  | nil => rfl
  | cons c cs ih =>
    have hc : ¬ (c = '-') := fun hh => h (hh ▸ List.mem_cons_self c cs)
    have hcs : '-' ∉ cs := fun hh => h (List.mem_cons_of_mem c hh)
    rw [splitHyphen, if_neg hc, ih hcs]

theorem splitHyphen_append (t r : List Char) (h : '-' ∉ t) :
    splitHyphen (t ++ '-' :: r) = t :: splitHyphen r := by
  induction t with
  | nil =>
    show splitHyphen ('-' :: r) = [] :: splitHyphen r
    rw [splitHyphen, if_pos rfl]
  | cons c cs ih =>
    have hc : ¬ (c = '-') := fun hh => h (hh ▸ List.mem_cons_self c cs)
    have hcs : '-' ∉ cs := fun hh => h (List.mem_cons_of_mem c hh)
    show splitHyphen (c :: (cs ++ '-' :: r)) = (c :: cs) :: splitHyphen r
    rw [splitHyphen, if_neg hc, ih hcs]

theorem splitHyphen_joinHyphen :
    ∀ ts : List (List Char), ts ≠ [] → (∀ t ∈ ts, '-' ∉ t) →
      splitHyphen (joinHyphen ts) = ts := by
  intro ts
  induction ts with
  | nil => intro h; exact absurd rfl h
  | cons t us ih =>
    intro _ hh
    cases us with
    | nil =>
      rw [joinHyphen]
      exact splitHyphen_no_hyphen t (hh t (List.mem_cons_self t []))
    | cons u vs =>
      rw [joinHyphen, splitHyphen_append t _ (hh t (List.mem_cons_self t _)),
        ih (List.cons_ne_nil u vs)
          (fun x hx => hh x (List.mem_cons_of_mem t hx))]

theorem joinHyphen_ne_nil (t : List Char) (ts : List (List Char))
    (ht : t ≠ []) : joinHyphen (t :: ts) ≠ [] := by
  cases ts with
  | nil => rw [joinHyphen]; exact ht
  | cons u vs =>
    rw [joinHyphen]
    exact List.append_ne_nil_of_left_ne_nil ht _

theorem joinHyphen_natDigits_injective :
    Function.Injective (fun l : List Nat => joinHyphen (l.map natDigits)) := by
  intro l1 l2 h
  simp only at h
  cases l1 with
  | nil =>
    cases l2 with
    | nil => rfl
    | cons x xs =>
      rw [List.map_nil, joinHyphen, List.map_cons] at h
      exact absurd h.symm (joinHyphen_ne_nil _ _ (natDigits_ne_nil x))
  | cons x xs =>
    cases l2 with
    | nil =>
      rw [List.map_nil, joinHyphen, List.map_cons] at h
      exact absurd h (joinHyphen_ne_nil _ _ (natDigits_ne_nil x))
    | cons y ys =>
      have hfree1 : ∀ t ∈ (x :: xs).map natDigits, '-' ∉ t := by
        intro t ht
        rcases List.mem_map.mp ht with ⟨n, _, rfl⟩
        exact natDigits_no_hyphen n
      have hfree2 : ∀ t ∈ (y :: ys).map natDigits, '-' ∉ t := by
        intro t ht
        rcases List.mem_map.mp ht with ⟨n, _, rfl⟩
        exact natDigits_no_hyphen n
      have hs1 := splitHyphen_joinHyphen ((x :: xs).map natDigits)
        (by simp) hfree1
      have hs2 := splitHyphen_joinHyphen ((y :: ys).map natDigits)
        (by simp) hfree2
      have hmaps : (x :: xs).map natDigits = (y :: ys).map natDigits := by
        rw [← hs1, ← hs2, h]
      exact List.map_injective_iff.mpr natDigits_injective hmaps

/-- C7 counterexample.  The period lists `[5, 10]` and `[10, 5]` are
permutations of each other, yet they derive different cache keys
(`industry_rps_5-10` vs `industry_rps_10-5`): the key is built by joining
the periods in the caller's order, with no canonicalization. -/
theorem cacheKey_order_sensitive :
    List.Perm [5, 10] [10, 5]
    ∧ cacheKeyChars [5, 10] ≠ cacheKeyChars [10, 5] := by
  decide

/-- C7 amended.  Key derivation is deterministic and injective in the
*ordered* period list: two period lists derive the same cache key iff
they are equal as ordered lists.  Parameter order is not canonicalized,
so permuted period lists generally derive different keys. -/
theorem cacheKey_injective_in_order (l1 l2 : List Nat) :
    cacheKeyChars l1 = cacheKeyChars l2 ↔ l1 = l2 := by
  constructor
  · intro h
    rw [cacheKeyChars, cacheKeyChars] at h
    exact joinHyphen_natDigits_injective (List.append_cancel_left h)
  · intro h
    rw [h]

/-! ### C9: entry points return best-effort partial results; a bad
identifier never fails the batch -/

theorem filterMap_fetch_agree (codes : List String)
    (fetch fetch2 : String → Option Series) (b : String)
    (hagree : ∀ c, c ≠ b → fetch2 c = fetch c) (hb2 : fetch2 b = none) :
    codes.filterMap (fun c => (fetch2 c).map (fun s => (c, s)))
      = (codes.filterMap (fun c => (fetch c).map (fun s => (c, s)))).filter
          (fun e => decide (¬ (e.1 = b))) := by
  induction codes with
  | nil => rfl
  | cons c cs ih =>
    rw [List.filterMap_cons, List.filterMap_cons]
    by_cases hc : c = b
    · subst hc
      rw [hb2]
      cases hf : fetch c with
      | none =>
        simp only [Option.map_none']
        exact ih
      | some s =>
        simp only [Option.map_none', Option.map_some']
        rw [List.filter_cons_of_neg (by simp)]
        exact ih
    · rw [hagree c hc]
      cases hf : fetch c with
      | none =>
        simp only [Option.map_none']
        exact ih
      | some s =>
        simp only [Option.map_some']
        rw [List.filter_cons_of_pos (by simpa using hc), ih]

/-- C9.  The public entry points degrade gracefully instead of failing:
(i) a code whose fetch fails contributes nothing to `calculate_stock_rps`
and leaves every other entity's result unchanged (within the 100-code
batch limit); (ii) when every fetch fails the result is the empty dict;
(iii) a failed industry fetch only removes that industry's series from the
industry data, leaving all others intact; (iv) `get_rps_ranking` always
returns a well-formed list of at most `top_n` entries (v) drawn from the
input map.  Fallible effects are modelled by `Option`-valued fetchers, so
no exception can escape by construction. -/
theorem entry_points_fault_isolation (l1 l2 : List String) (b : String)
    (periods : List Nat) (fetch fetch2 : String → Option Series)
    (hb : fetch b = none)
    (hlen : (l1 ++ b :: l2).length ≤ 100)
    (hagree : ∀ c, c ≠ b → fetch2 c = fetch c)
    (hb2 : fetch2 b = none)
    (codes : List String) (d : List (String × Rat)) (n : Nat) :
    calculateStockRps (l1 ++ b :: l2) periods fetch
        = calculateStockRps (l1 ++ l2) periods fetch
    ∧ calculateStockRps codes periods (fun _ => none) = none
    ∧ getIndustryData fetch2
        = (getIndustryData fetch).filter (fun e => decide (¬ (e.1 = b)))
    ∧ (getRpsRanking d n).length ≤ n
    ∧ ∀ e ∈ getRpsRanking d n, e.code ∈ d.map Prod.fst := by
  have hdata : getStocksData (l1 ++ b :: l2) fetch
      = getStocksData (l1 ++ l2) fetch := by
    have hlen2 : (l1 ++ l2).length ≤ 100 := by
      rw [List.length_append] at hlen ⊢
      rw [List.length_cons] at hlen
      omega
    rw [getStocksData, getStocksData, List.take_of_length_le hlen,
      List.take_of_length_le hlen2, List.filterMap_append,
      List.filterMap_append, List.filterMap_cons, hb]
    simp only [Option.map_none']
  refine ⟨?_, ?_, filterMap_fetch_agree industryCodes fetch fetch2 b hagree hb2,
    ?_, ?_⟩
  · rw [calculateStockRps, calculateStockRps, hdata]
  · have hempty : getStocksData codes (fun _ => none) = [] := by
      rw [getStocksData]
      exact List.filterMap_eq_nil_iff.mpr (fun a _ => rfl)
    rw [calculateStockRps, hempty]
    by_cases hp : periods = []
    · rw [if_pos hp]
    · rw [if_neg hp]
      rfl
  · rw [getRpsRanking]
    rw [List.length_map, List.enum_length, List.length_take]
    exact Nat.min_le_left _ _
  · intro e he
    have hcode : (getRpsRanking d n).map RankEntry.code
        = ((sortDesc (fun e => e.2) d).take n).map Prod.fst := by
      rw [getRpsRanking, List.map_map]
      have h : (RankEntry.code ∘ fun ie : Nat × (String × Rat) =>
          (⟨ie.2.1, ie.2.2, ie.1 + 1,
            getSingleStrengthLevel ie.2.2⟩ : RankEntry))
          = Prod.fst ∘ Prod.snd := rfl
      rw [h, ← List.map_map, List.enum_map_snd]
    have h1 : e.code ∈ (getRpsRanking d n).map RankEntry.code :=
      List.mem_map_of_mem _ he
    rw [hcode] at h1
    have h2 : ((sortDesc (fun e => e.2) d).take n).map Prod.fst
        = ((sortDesc (fun e => e.2) d).map Prod.fst).take n :=
      List.map_take _ _ _
    rw [h2] at h1
    have h3 : e.code ∈ (sortDesc (fun e => e.2) d).map Prod.fst :=
      (List.take_sublist _ _).subset h1
    exact (((sortDesc_perm (fun e => e.2) d).map Prod.fst).mem_iff).mp h3

/-- Witness for C9: batch `["g", "x"]` where the fetch of `"x"` fails,
evaluated against the batch `["g"]` without it. -/
theorem entry_points_fault_isolation_witness :
    ((fun c => if c = "g" then some ([1, 2] : Series) else none) "x" = none)
    ∧ ((["g"] ++ "x" :: ([] : List String)).length ≤ 100)
    ∧ (∀ c : String, c ≠ "x" →
        (fun c => if c = "g" then some ([1, 2] : Series) else none) c
          = (fun c => if c = "g" then some ([1, 2] : Series) else none) c)
    ∧ (calculateStockRps (["g"] ++ "x" :: []) [1]
          (fun c => if c = "g" then some ([1, 2] : Series) else none)
        = calculateStockRps (["g"] ++ []) [1]
          (fun c => if c = "g" then some ([1, 2] : Series) else none)
      ∧ calculateStockRps ["z"] [1] (fun _ => none) = none
      ∧ getIndustryData
            (fun c => if c = "g" then some ([1, 2] : Series) else none)
          = (getIndustryData
              (fun c => if c = "g" then some ([1, 2] : Series) else none)).filter
              (fun e => decide (¬ (e.1 = "x")))
      ∧ (getRpsRanking [("g", 50)] 1).length ≤ 1
      ∧ ∀ e ∈ getRpsRanking [("g", 50)] 1,
          e.code ∈ [(("g" : String), (50 : Rat))].map Prod.fst) :=
  ⟨by with_unfolding_all decide, by decide, fun c _ => rfl,
    entry_points_fault_isolation ["g"] [] "x" [1]
      (fun c => if c = "g" then some ([1, 2] : Series) else none)
      (fun c => if c = "g" then some ([1, 2] : Series) else none)
      (by with_unfolding_all decide) (by decide) (fun c _ => rfl)
      (by with_unfolding_all decide) ["z"] [("g", 50)] 1⟩

/-- Witness for C1 at the concrete input `[("a", 3), ("b", 1)]`. -/
theorem percentileRanker_bijection_witness :
    ([(("a" : String), (3 : Rat)), ("b", 1)] ≠ [])
    ∧ (([(("a" : String), (3 : Rat)), ("b", 1)].map Prod.fst).Nodup)
    ∧ ((rpsFromReturns [("a", 3), ("b", 1)]).map Prod.snd
        = (List.range 2).map (fun i => ((2 - i : Nat) : Rat) / (2 : Rat) * 100)
      ∧ List.Perm ((rpsFromReturns [("a", 3), ("b", 1)]).map Prod.fst)
          ([(("a" : String), (3 : Rat)), ("b", 1)].map Prod.fst)
      ∧ ((rpsFromReturns [("a", 3), ("b", 1)]).map Prod.fst).Nodup
      ∧ ((rpsFromReturns [("a", 3), ("b", 1)]).map Prod.snd).Nodup) :=
  ⟨by decide, by decide,
    percentileRanker_bijection [("a", 3), ("b", 1)] (by decide) (by decide)⟩

end RpsAnalyzer
